import Mathlib

/-!
Verification development for the Block Access List (BAL) subsystem:
the `BalanceChange` record, the `BlockAccessList` aggregate (a plain
vector of per-account change bundles), and the canonical RLP-style
encoding and 256-bit commitment hash over it.

Machine integers of the source (`u64` transaction indices, `U256`
balances, 20-byte addresses) are embedded as `Nat` with explicit bounds
where a theorem depends on the width.
-/

set_option maxRecDepth 4000

namespace BAL

/-! ## Byte-level RLP primitives (alloy_rlp semantics) -/

/-- Minimal big-endian byte string of a natural number; `0` encodes to `[]`. -/
def beBytes : Nat → List Nat
  | 0 => []
  | n+1 => beBytes ((n+1) / 256) ++ [(n+1) % 256]
decreasing_by exact Nat.div_lt_self (Nat.succ_pos n) (by norm_num)

/-- Big-endian value of a byte string. -/
def beVal (l : List Nat) : Nat :=
  l.foldl (fun a b => a * 256 + b) 0

/-- RLP header for a string payload of the given length. -/
def strHeader (len : Nat) : List Nat :=
  if len < 56 then [0x80 + len] else (0xb7 + (beBytes len).length) :: beBytes len

/-- RLP header for a list payload of the given length. -/
def listHeader (len : Nat) : List Nat :=
  if len < 56 then [0xc0 + len] else (0xf7 + (beBytes len).length) :: beBytes len

/-- RLP encoding of a raw byte string (a single byte below `0x80` is its own
encoding; otherwise the string is prefixed with `strHeader`). -/
def encStrBytes (bs : List Nat) : List Nat :=
  match bs with
  | [b] => if b < 0x80 then [b] else strHeader 1 ++ bs
  | _ => strHeader bs.length ++ bs

/-- RLP encoding of an unsigned scalar, as `alloy_rlp` encodes `u64`/`U256`:
zero is the empty string `0x80`, a value below `0x80` is a single byte, and
anything else is its minimal big-endian bytes behind a string header. -/
def encNat (n : Nat) : List Nat :=
  if n = 0 then [0x80]
  else if n < 0x80 then [n]
  else strHeader (beBytes n).length ++ beBytes n

/-- RLP encoding of a list given its already-encoded payload. -/
def encList (payload : List Nat) : List Nat :=
  listHeader payload.length ++ payload

/-- First byte of `encNat n` (when the scalar is at most 55 bytes wide). -/
def encNatHead (n : Nat) : Nat :=
  if n = 0 then 0x80 else if n < 0x80 then n else 0x80 + (beBytes n).length

/-- Bytes of `encNat n` after the first (when the scalar is at most 55 bytes
wide). -/
def encNatTail (n : Nat) : List Nat :=
  if n < 0x80 then [] else beBytes n

/-! ## BalanceChange (src/crates/block-access-list/src/balance_change.rs) -/

/-- `BalanceChange { tx_index: TxIndex, post_balance: U256 }`: `TxIndex` is
`u64`, `U256` a 256-bit unsigned integer; both embedded as `Nat`. -/
structure BalanceChange where
  tx_index : Nat
  post_balance : Nat
deriving DecidableEq, Repr

/-- `BalanceChange::new(tx_index, post_balance)`. -/
def BalanceChange.new (tx_index post_balance : Nat) : BalanceChange :=
  ⟨tx_index, post_balance⟩

/-- The `tx_index()` accessor: returns the `tx_index` field. -/
def BalanceChange.txIndexAccessor (b : BalanceChange) : Nat :=
  b.tx_index

/-- The `post_balance()` accessor: returns the `post_balance` field. -/
def BalanceChange.postBalanceAccessor (b : BalanceChange) : Nat :=
  b.post_balance

/-- `BalanceChange::default()`: `u64` defaults to `0`, `U256` to `U256::ZERO`. -/
def balanceChangeDefault : BalanceChange :=
  ⟨0, 0⟩

/-- Width bounds of the source's field types: `tx_index : u64`,
`post_balance : U256`. -/
def BalanceChange.WF (b : BalanceChange) : Prop :=
  b.tx_index < 2 ^ 64 ∧ b.post_balance < 2 ^ 256

instance (b : BalanceChange) : Decidable b.WF := by
  unfold BalanceChange.WF; infer_instance

/-- The derived `RlpEncodable` for `BalanceChange`: a list header over the
concatenated field encodings, fields in declaration order. -/
def encBalanceChange (b : BalanceChange) : List Nat :=
  encList (encNat b.tx_index ++ encNat b.post_balance)

/-! ## AccountChanges and BlockAccessList -/

/-- Modelled from the spec: `account_change.rs` is not among the visible
sources, only its re-export and use in `bal.rs`.  Per the spec's data model,
`AccountChanges` holds the address of one account and the ordered sequence of
its balance changes (the other change kinds follow the identical shape and
are not modelled in the current core). -/
structure AccountChanges where
  address : Nat
  balance_changes : List BalanceChange
deriving DecidableEq, Repr

/-- Error conditions of the subsystem, per the spec's error-handling design. -/
inductive BalError where
  | OutOfOrderChange
  | DuplicateAccount
deriving DecidableEq, Repr

/-- Modelled from the spec: the append operation of `AccountChanges`
(`account_change.rs` is not among the visible sources).  Appending a
`BalanceChange` whose `tx_index` is not strictly greater than the last
recorded index for the balance field fails with `OutOfOrderChange`;
otherwise the change is appended after the existing entries. -/
def AccountChanges.appendBalanceChange (a : AccountChanges) (c : BalanceChange) :
    Except BalError AccountChanges :=
  match a.balance_changes.getLast? with
  | none => .ok ⟨a.address, a.balance_changes ++ [c]⟩
  | some last =>
      if c.tx_index ≤ last.tx_index then .error .OutOfOrderChange
      else .ok ⟨a.address, a.balance_changes ++ [c]⟩

/-- Well-formedness from the source's widths: the address is 20 bytes, and
every balance change fits its field types. -/
def AccountChanges.WF (a : AccountChanges) : Prop :=
  a.address < 2 ^ 160 ∧ ∀ b ∈ a.balance_changes, b.WF

instance (a : AccountChanges) : Decidable a.WF := by
  unfold AccountChanges.WF; infer_instance

/-- `pub type BlockAccessList = Vec<AccountChanges>;` (bal.rs line 7): the
aggregate is a plain vector of account change bundles. -/
def BlockAccessList : Type := List AccountChanges

instance : DecidableEq BlockAccessList := by
  unfold BlockAccessList; infer_instance

/-- `BlockAccessList::default()`: the empty vector. -/
def blockAccessListDefault : BlockAccessList := ([] : List AccountChanges)

/-- Construction of a `BlockAccessList` in the source: the type is a bare
`Vec<AccountChanges>`, so constructing one from an ordered sequence of
`AccountChanges` is just that sequence — no check of any kind is performed. -/
def mkBlockAccessList (l : List AccountChanges) : BlockAccessList := l

/-- The constructor as the spec's words describe it (for comparison with
`mkBlockAccessList`): a single pass over the sequence building the set of
seen addresses, failing with `DuplicateAccount` when an address repeats. -/
def mkBlockAccessListSpec (l : List AccountChanges) : Except BalError BlockAccessList :=
  go l [] |>.map fun _ => l
where
  go : List AccountChanges → List Nat → Except BalError Unit
    | [], _ => .ok ()
    | a :: rest, seen =>
        if a.address ∈ seen then .error .DuplicateAccount
        else go rest (a.address :: seen)

/-- Well-formedness of a whole list: every bundle is well formed. -/
def balWF (l : List AccountChanges) : Prop :=
  ∀ a ∈ l, a.WF

instance (l : List AccountChanges) : Decidable (balWF l) := by
  unfold balWF; infer_instance

/-! ## Canonical encoding of the aggregate -/

/-- A 20-byte address is RLP-encoded as a fixed-width 20-byte string:
header `0x94` followed by the big-endian bytes left-padded with zeros. -/
def encAddress (a : Nat) : List Nat :=
  0x94 :: (List.replicate (20 - (beBytes a).length) 0 ++ beBytes a)

/-- Modelled from the spec: the encoding of one `AccountChanges` bundle
(`account_change.rs` is not among the visible sources).  Per the spec's wire
format, each `AccountChanges` is encoded as a list holding the account's
address and its field-change list; only balance changes exist in the core. -/
def encAccountChanges (a : AccountChanges) : List Nat :=
  encList (encAddress a.address ++
    encList ((a.balance_changes.map encBalanceChange).flatten))

/-- Modelled from the spec: `canonical_bytes()` does not appear in the
visible sources (bal.rs only carries a commented-out test RLP-encoding the
list).  Per the spec, the top-level `BlockAccessList` is encoded as the RLP
list of the `AccountChanges` encodings, in order. -/
def canonical_bytes (bal : BlockAccessList) : List Nat :=
  encList ((bal.map encAccountChanges).flatten)

/-- The spec's own wire-format description of a `BalanceChange` (for
comparison with the derive-generated `encBalanceChange`): the encoding of the
2-element list `[tx_index, post_balance]`, each scalar as its minimal-length
big-endian byte string, the list prefixed with a header carrying the total
payload length. -/
def balanceChangeSpecBytes (b : BalanceChange) : List Nat :=
  let e1 := encStrBytes (beBytes b.tx_index)
  let e2 := encStrBytes (beBytes b.post_balance)
  listHeader (e1 ++ e2).length ++ (e1 ++ e2)

/-! ## Keccak-256 (the fixed 256-bit hash applied by `commitment_hash`) -/

/-- All-ones mask of a 64-bit lane. -/
def w64mask : Nat := 2 ^ 64 - 1

/-- 64-bit left rotation. -/
def rotl64 (x k : Nat) : Nat :=
  ((x <<< k) ||| (x >>> (64 - k))) &&& w64mask

/-- The 24 round constants of Keccak-f[1600] (decimal). -/
def keccakRC : List Nat :=
  [1, 32898, 9223372036854808714,
   9223372039002292224, 32907, 2147483649,
   9223372039002292353, 9223372036854808585, 138,
   136, 2147516425, 2147483658,
   2147516555, 9223372036854775947, 9223372036854808713,
   9223372036854808579, 9223372036854808578, 9223372036854775936,
   32778, 9223372039002259466, 9223372039002292353,
   9223372036854808704, 2147483649, 9223372039002292232]

/-- Builds the rotation-offset table by walking the standard lane orbit:
starting from lane `(1, 0)`, step `t` assigns the triangular number
`(t+1)(t+2)/2 mod 64` to the current lane and moves to `(y, 2x+3y)`. -/
def keccakRotGo : Nat → Nat → Nat → Nat → List Nat → List Nat
  | 0, _, _, _, acc => acc
  | k + 1, t, x, y, acc =>
      keccakRotGo k (t + 1) y ((2 * x + 3 * y) % 5)
        (acc.set (x + 5 * y) ((t + 1) * (t + 2) / 2 % 64))

/-- Rotation offsets, indexed by lane position `x + 5 * y`. -/
def keccakRot : List Nat :=
  keccakRotGo 24 0 1 0 (List.replicate 25 0)

/-- θ step: each lane is xored with the parity of two neighbouring columns. -/
def keccakTheta (s : List Nat) : List Nat :=
  let c := fun x =>
    (s.getD (x % 5) 0) ^^^ (s.getD (x % 5 + 5) 0) ^^^ (s.getD (x % 5 + 10) 0) ^^^
    (s.getD (x % 5 + 15) 0) ^^^ (s.getD (x % 5 + 20) 0)
  (List.range 25).map fun i => (s.getD i 0) ^^^ ((c (i % 5 + 4)) ^^^ rotl64 (c (i % 5 + 1)) 1)

/-- ρ and π steps: lane `(x, y)` is rotated by its offset and moved to
position `(y, 2x + 3y)`. -/
def keccakRhoPi (s : List Nat) : List Nat :=
  (List.range 25).map fun i =>
    let j := (i % 5 + 3 * (i / 5)) % 5 + 5 * (i % 5)
    rotl64 (s.getD j 0) (keccakRot.getD j 0)

/-- χ step: nonlinear mix along each row. -/
def keccakChi (s : List Nat) : List Nat :=
  (List.range 25).map fun i =>
    let x := i % 5
    let y := i / 5
    (s.getD i 0) ^^^
      (((s.getD ((x + 1) % 5 + 5 * y) 0) ^^^ w64mask) &&& (s.getD ((x + 2) % 5 + 5 * y) 0))

/-- One round of Keccak-f[1600]: θ, ρ, π, χ, then ι with the round constant. -/
def keccakRound (rc : Nat) (s : List Nat) : List Nat :=
  let t := keccakChi (keccakRhoPi (keccakTheta s))
  t.set 0 ((t.getD 0 0) ^^^ rc)

/-- The full Keccak-f[1600] permutation: 24 rounds. -/
def keccakF (s : List Nat) : List Nat :=
  keccakRC.foldl (fun st rc => keccakRound rc st) s

/-- Keccak (pre-SHA3) pad10*1 with domain byte `0x01`, to a multiple of the
1088-bit rate (136 bytes). -/
def keccakPad (msg : List Nat) : List Nat :=
  let padLen := 136 - msg.length % 136
  if padLen = 1 then msg ++ [0x81]
  else msg ++ [0x01] ++ List.replicate (padLen - 2) 0 ++ [0x80]

/-- A lane from 8 bytes, little-endian. -/
def bytesToLane (bs : List Nat) : Nat :=
  bs.foldr (fun b acc => acc * 256 + b) 0

/-- Absorb one 136-byte block into the state and permute. -/
def absorbBlock (st block : List Nat) : List Nat :=
  keccakF ((List.range 25).map fun i =>
    (st.getD i 0) ^^^ (if i < 17 then bytesToLane ((block.drop (8 * i)).take 8) else 0))

/-- Absorb a padded message, 136 bytes at a time; the fuel argument bounds
the number of blocks and is structurally decreasing. -/
def absorbGo : Nat → List Nat → List Nat → List Nat
  | 0, st, _ => st
  | _ + 1, st, [] => st
  | f + 1, st, b :: bs => absorbGo f (absorbBlock st ((b :: bs).take 136)) ((b :: bs).drop 136)

/-- Absorb a padded message, 136 bytes at a time. -/
def absorb (st msg : List Nat) : List Nat :=
  absorbGo (msg.length / 136 + 1) st msg

/-- The 8 bytes of a lane, little-endian. -/
def laneBytes (x : Nat) : List Nat :=
  (List.range 8).map fun i => (x >>> (8 * i)) % 256

/-- Keccak-256 of a byte string: absorb the padded input into the all-zero
state and squeeze the first 32 bytes (four lanes). -/
def keccak256 (msg : List Nat) : List Nat :=
  let st := absorb (List.replicate 25 0) (keccakPad msg)
  laneBytes (st.getD 0 0) ++ laneBytes (st.getD 1 0) ++
    laneBytes (st.getD 2 0) ++ laneBytes (st.getD 3 0)

/-- Modelled from the spec: `commitment_hash()` does not appear in the
visible sources (bal.rs's commented-out test applies `keccak256` to the RLP
encoding).  The fixed 256-bit hash of `canonical_bytes()`. -/
def commitment_hash (bal : BlockAccessList) : List Nat :=
  keccak256 (canonical_bytes bal)

/-! ## RLP decoding (alloy_rlp `Header::decode` and uint decoding, as used by
the derived `RlpDecodable` for `BalanceChange`) -/

/-- Decoding errors of `alloy_rlp`. -/
inductive RlpError where
  | InputTooShort
  | NonCanonicalSingleByte
  | NonCanonicalSize
  | LeadingZero
  | Overflow
  | UnexpectedString
  | UnexpectedList
  | ListLengthMismatch
deriving DecidableEq, Repr

/-- Decode an unsigned scalar of at most `width` bytes (`width = 8` for
`u64`, `32` for `U256`), as `alloy_rlp` does: a byte below `0x80` is its own
value, a short string must be minimal (no leading zero, no non-canonical
single byte) and fit the width; a long string never fits a width below 56,
so after its header parses it always overflows; a list header is rejected. -/
def decodeScalar (width : Nat) : List Nat → Except RlpError (Nat × List Nat)
  | [] => .error .InputTooShort
  | b :: rest =>
    if b < 0x80 then
      if b = 0 then .error .LeadingZero else .ok (b, rest)
    else if b < 0xb8 then
      let len := b - 0x80
      if rest.length < len then .error .InputTooShort
      else if len = 1 ∧ rest.getD 0 0 < 0x80 then .error .NonCanonicalSingleByte
      else if width < len then .error .Overflow
      else if 0 < len ∧ rest.getD 0 0 = 0 then .error .LeadingZero
      else .ok (beVal (rest.take len), rest.drop len)
    else if b < 0xc0 then
      let ll := b - 0xb7
      if rest.length < ll then .error .InputTooShort
      else if rest.getD 0 0 = 0 then .error .LeadingZero
      else if beVal (rest.take ll) < 56 then .error .NonCanonicalSize
      else .error .Overflow
    else .error .UnexpectedList

/-- Decode a list header, returning the payload length and the remaining
input positioned at the payload. -/
def decodeListHeader : List Nat → Except RlpError (Nat × List Nat)
  | [] => .error .InputTooShort
  | b :: rest =>
    if b < 0xc0 then .error .UnexpectedString
    else if b < 0xf8 then
      let len := b - 0xc0
      if rest.length < len then .error .InputTooShort else .ok (len, rest)
    else
      let ll := b - 0xf7
      if rest.length < ll then .error .InputTooShort
      else if rest.getD 0 0 = 0 then .error .LeadingZero
      else if beVal (rest.take ll) < 56 then .error .NonCanonicalSize
      else if rest.length - ll < beVal (rest.take ll) then .error .InputTooShort
      else .ok (beVal (rest.take ll), rest.drop ll)

/-- The derived `RlpDecodable` for `BalanceChange`: decode a list header,
then the two fields in declaration order, and require that exactly the
header's payload length was consumed. -/
def decodeBalanceChange (bs : List Nat) : Except RlpError (BalanceChange × List Nat) := do
  let (plen, r1) ← decodeListHeader bs
  let (tx, r2) ← decodeScalar 8 r1
  let (bal, r3) ← decodeScalar 32 r2
  if r1.length - r3.length = plen then pure (BalanceChange.new tx bal, r3)
  else .error .ListLengthMismatch

/-! ## Concrete sample values -/

/-- A sample bundle: address `5`, no balance changes. -/
def accA : AccountChanges := ⟨5, []⟩

/-- A second bundle sharing address `5`, with one balance change. -/
def accB : AccountChanges := ⟨5, [⟨0, 100⟩]⟩

/-- The spec's scenario bundle: one account with balance changes
`(0, 100)` and `(3, 250)`. -/
def accS : AccountChanges := ⟨1, [⟨0, 100⟩, ⟨3, 250⟩]⟩

/-! ## Basic facts about the byte primitives -/

theorem beBytes_small {n : Nat} (h1 : 0 < n) (h2 : n < 256) : beBytes n = [n] := by
  match n, h1 with
  | m+1, _ =>
    rw [beBytes]
    have hd : (m+1) / 256 = 0 := Nat.div_eq_of_lt h2
    have hm : (m+1) % 256 = m+1 := Nat.mod_eq_of_lt h2
    rw [hd, hm, beBytes]
    rfl

theorem beVal_append (xs ys : List Nat) :
    beVal (xs ++ ys) = ys.foldl (fun a b => a * 256 + b) (beVal xs) := by
  simp [beVal, List.foldl_append]

theorem beVal_beBytes (n : Nat) : beVal (beBytes n) = n := by
  induction n using Nat.strong_induction_on with
  | _ n ih =>
    match n with
    | 0 => simp [beBytes, beVal]
    | m+1 =>
      rw [beBytes, beVal_append]
      have : beVal (beBytes ((m+1) / 256)) = (m+1) / 256 :=
        ih _ (Nat.div_lt_self (Nat.succ_pos m) (by norm_num))
      simp only [List.foldl, this]
      omega

theorem beBytes_injective {m n : Nat} (h : beBytes m = beBytes n) : m = n := by
  have := beVal_beBytes m
  rw [h, beVal_beBytes] at this
  omega

theorem beBytes_length_le {n k : Nat} (h : n < 256 ^ k) : (beBytes n).length ≤ k := by
  induction k generalizing n with
  | zero =>
    interval_cases n
    simp [beBytes]
  | succ k ih =>
    match n with
    | 0 => simp [beBytes]
    | m+1 =>
      rw [beBytes]
      have hdiv : (m+1) / 256 < 256 ^ k := by
        rw [Nat.div_lt_iff_lt_mul (by norm_num)]
        calc m+1 < 256 ^ (k+1) := h
        _ = 256 ^ k * 256 := by ring
      have := ih hdiv
      simp only [List.length_append, List.length_cons, List.length_nil]
      omega

theorem beBytes_pos {n : Nat} (h : 0 < n) : 0 < (beBytes n).length := by
  match n, h with
  | m+1, _ =>
    rw [beBytes]
    simp

theorem beBytes_head_pos {n : Nat} (h : 0 < n) :
    ∃ a l, beBytes n = a :: l ∧ 0 < a := by
  induction n using Nat.strong_induction_on with
  | _ n ih =>
    match n, h with
    | m+1, _ =>
      by_cases hlt : m+1 < 256
      · exact ⟨m+1, [], beBytes_small (Nat.succ_pos m) hlt, Nat.succ_pos m⟩
      · have hq : 0 < (m+1) / 256 := Nat.div_pos (by omega) (by norm_num)
        obtain ⟨a, l, hl, ha⟩ :=
          ih _ (Nat.div_lt_self (Nat.succ_pos m) (by norm_num)) hq
        refine ⟨a, l ++ [(m+1) % 256], ?_, ha⟩
        rw [beBytes, hl]
        simp

theorem beBytes_step {n : Nat} (h : 0 < n) :
    beBytes n = beBytes (n / 256) ++ [n % 256] := by
  match n, h with
  | m+1, _ => rw [beBytes]

theorem encNat_eq_encStrBytes (n : Nat) : encNat n = encStrBytes (beBytes n) := by
  by_cases h0 : n = 0
  · subst h0
    simp [encNat, encStrBytes, beBytes, strHeader]
  · by_cases h1 : n < 0x80
    · rw [beBytes_small (Nat.pos_of_ne_zero h0) (by omega)]
      simp [encNat, encStrBytes, h0, h1]
    · by_cases h2 : n < 256
      · rw [beBytes_small (Nat.pos_of_ne_zero h0) h2]
        simp [encNat, encStrBytes, h0, h1, beBytes_small (Nat.pos_of_ne_zero h0) h2]
      · have hq : 0 < n / 256 := Nat.div_pos (by omega) (by norm_num)
        obtain ⟨a, l, hl, _⟩ := beBytes_head_pos hq
        have hshape : beBytes n = a :: (l ++ [n % 256]) := by
          rw [beBytes_step (by omega), hl]
          simp
        have hlong : encStrBytes (beBytes n) = strHeader (beBytes n).length ++ beBytes n := by
          rw [hshape]
          match l with
          | [] => rfl
          | c :: l2 => rfl
        rw [hlong]
        simp [encNat, h0, h1]

/-- C5: For every `tx_index` `t` and `post_balance` `b`, with no restriction
on either value, `BalanceChange::new(t, b)` succeeds (it is a total
function) and the accessors `tx_index()` and `post_balance()` return exactly
`t` and `b`. -/
theorem c5_new_accessors :
    ∀ t b : Nat, (BalanceChange.new t b).txIndexAccessor = t ∧
      (BalanceChange.new t b).postBalanceAccessor = b :=
  fun _ _ => ⟨rfl, rfl⟩

/-- C6: Equality on `BalanceChange` is structural: two values are equal iff
their `tx_index` fields are equal and their `post_balance` fields are
equal. -/
theorem c6_structural_eq :
    ∀ x y : BalanceChange,
      x = y ↔ x.tx_index = y.tx_index ∧ x.post_balance = y.post_balance := by
  intro x y
  cases x
  cases y
  simp

/-- C7: The canonical encoding of every `BalanceChange` is the encoding of
the 2-element list `[tx_index, post_balance]`: each scalar as its
minimal-length big-endian byte string, the list prefixed with a header
carrying the total payload length. -/
theorem c7_encoding_shape :
    ∀ b : BalanceChange, encBalanceChange b = balanceChangeSpecBytes b := by
  intro b
  simp [encBalanceChange, balanceChangeSpecBytes, encList, encNat_eq_encStrBytes]

/-- C10: `BalanceChange::default()` equals `BalanceChange::new(0, 0)`: both
fields default to zero. -/
theorem c10_default :
    balanceChangeDefault = BalanceChange.new 0 0 ∧
      balanceChangeDefault.tx_index = 0 ∧ balanceChangeDefault.post_balance = 0 :=
  ⟨rfl, rfl, rfl⟩

theorem laneBytes_length (x : Nat) : (laneBytes x).length = 8 := by
  simp [laneBytes]

theorem keccak256_length (msg : List Nat) : (keccak256 msg).length = 32 := by
  simp [keccak256, laneBytes_length]

/-- C1: `canonical_bytes()` and `commitment_hash()` are pure functions of the
`BlockAccessList` value: equal inputs give identical byte output and an
identical 32-byte digest on every call. -/
theorem c1_determinism (a b : BlockAccessList) (h : a = b) :
    canonical_bytes a = canonical_bytes b ∧
      commitment_hash a = commitment_hash b ∧
      (commitment_hash a).length = 32 := by
  subst h
  exact ⟨rfl, rfl, keccak256_length _⟩

/-- Witness for C1 at a concrete one-account list. -/
theorem c1_witness :
    canonical_bytes [accS] = canonical_bytes [accS] ∧
      commitment_hash [accS] = commitment_hash [accS] ∧
      (commitment_hash [accS]).length = 32 :=
  c1_determinism [accS] [accS] rfl

/-- C3: the empty `BlockAccessList` (`BlockAccessList::default()`) encodes to
the single reserved empty-list marker byte `0xc0`, and its commitment hash is
the fixed 32-byte digest `keccak256(0xc0)` =
`1dcc4de8dec75d7aab85b567b6ccd41ad312451b948a7413f0a142fd40d49347`. -/
theorem c3_empty_encoding :
    canonical_bytes blockAccessListDefault = [0xc0] ∧
      commitment_hash blockAccessListDefault =
        [0x1d, 0xcc, 0x4d, 0xe8, 0xde, 0xc7, 0x5d, 0x7a,
         0xab, 0x85, 0xb5, 0x67, 0xb6, 0xcc, 0xd4, 0x1a,
         0xd3, 0x12, 0x45, 0x1b, 0x94, 0x8a, 0x74, 0x13,
         0xf0, 0xa1, 0x42, 0xfd, 0x40, 0xd4, 0x93, 0x47] := by
  constructor
  · rfl
  · decide

/-- C2 counterexample: the source's `BlockAccessList` is a bare
`Vec<AccountChanges>`, so constructing one from two bundles sharing address
`5` succeeds (construction is the identity and performs no check), even
though the spec-worded checker rejects the same input with
`DuplicateAccount`. -/
theorem c2_counterexample :
    mkBlockAccessList [accA, accB] = [accA, accB] ∧
      accA.address = accB.address ∧
      mkBlockAccessListSpec [accA, accB] = .error .DuplicateAccount :=
  ⟨rfl, rfl, rfl⟩

/-- C2 amended: construction of a `BlockAccessList` from an ordered sequence
of `AccountChanges` always succeeds and is the identity on the sequence — no
duplicate-address check is performed; input order is preserved in the encoded
bytes (the encoded payload of a concatenation is the concatenation of the
encoded payloads); and a duplicate check written to the spec's words would
accept every sequence with pairwise-distinct addresses. -/
theorem c2_construction_unchecked :
    ∀ l : List AccountChanges,
      mkBlockAccessList l = l ∧
      (∀ l2 : List AccountChanges,
        ((l ++ l2).map encAccountChanges).flatten =
          (l.map encAccountChanges).flatten ++ (l2.map encAccountChanges).flatten) ∧
      (l.Pairwise (fun a b => a.address ≠ b.address) →
        mkBlockAccessListSpec l = .ok l) := by
  intro l
  refine ⟨rfl, fun l2 => by simp, fun hp => ?_⟩
  have key : ∀ (l' : List AccountChanges) (seen : List Nat),
      l'.Pairwise (fun a b => a.address ≠ b.address) →
      (∀ a ∈ l', a.address ∉ seen) →
      mkBlockAccessListSpec.go l' seen = .ok () := by
    intro l'
    induction l' with
    | nil => intro seen _ _; rfl
    | cons a rest ih =>
        intro seen hp hseen
        rw [mkBlockAccessListSpec.go]
        rw [List.pairwise_cons] at hp
        have hnot : a.address ∉ seen := hseen a (by simp)
        rw [if_neg hnot]
        refine ih _ hp.2 ?_
        intro x hx
        simp only [List.mem_cons]
        push_neg
        exact ⟨Ne.symm (hp.1 x hx), hseen x (by simp [hx])⟩
  unfold mkBlockAccessListSpec
  rw [key l [] hp (by simp)]
  rfl

/-- C8: appending a `BalanceChange` whose `tx_index` is at most the last
appended index for the account's balance field fails with `OutOfOrderChange`;
appending with a strictly greater index succeeds and leaves all previously
appended entries unchanged (the result is the old sequence with the new
change appended). -/
theorem c8_append_ordering (a : AccountChanges) (c last : BalanceChange)
    (h : a.balance_changes.getLast? = some last) :
    (c.tx_index ≤ last.tx_index →
        a.appendBalanceChange c = Except.error BalError.OutOfOrderChange) ∧
    (last.tx_index < c.tx_index →
        a.appendBalanceChange c =
          Except.ok ⟨a.address, a.balance_changes ++ [c]⟩) := by
  unfold AccountChanges.appendBalanceChange
  rw [h]
  refine ⟨fun hc => ?_, fun hc => ?_⟩
  · exact if_pos hc
  · exact if_neg (Nat.not_le.mpr hc)

/-- Witness for C8 at the spec's scenario bundle: the last appended index is
`3`; appending index `3` fails, appending index `5` succeeds. -/
theorem c8_witness :
    ((BalanceChange.new 3 9).tx_index ≤ (BalanceChange.new 3 250).tx_index →
        accS.appendBalanceChange (BalanceChange.new 3 9) =
          Except.error BalError.OutOfOrderChange) ∧
    ((BalanceChange.new 3 250).tx_index < (BalanceChange.new 3 9).tx_index →
        accS.appendBalanceChange (BalanceChange.new 3 9) =
          Except.ok ⟨accS.address, accS.balance_changes ++ [BalanceChange.new 3 9]⟩) :=
  c8_append_ordering accS (BalanceChange.new 3 9) (BalanceChange.new 3 250) (by decide)

/-! ## Prefix-injectivity of the encoders -/

theorem encNat_eq_cons (n : Nat) (h55 : (beBytes n).length ≤ 55) :
    encNat n = encNatHead n :: encNatTail n := by
  unfold encNat encNatHead encNatTail
  by_cases h0 : n = 0
  · simp [h0]
  · by_cases h1 : n < 0x80
    · simp [h0, h1]
    · have : strHeader (beBytes n).length = [0x80 + (beBytes n).length] := by
        unfold strHeader
        rw [if_pos (by omega)]
      simp [h0, h1, this]

theorem encNatHead_high {n : Nat} (h1 : ¬n < 0x80) :
    encNatHead n = 0x80 + (beBytes n).length ∧ 0 < (beBytes n).length := by
  constructor
  · unfold encNatHead
    rw [if_neg (by omega), if_neg h1]
  · exact beBytes_pos (by omega)

theorem encNat_prefix_inj {m n : Nat} {s t : List Nat}
    (hm : (beBytes m).length ≤ 55) (hn : (beBytes n).length ≤ 55)
    (h : encNat m ++ s = encNat n ++ t) : m = n ∧ s = t := by
  rw [encNat_eq_cons m hm, encNat_eq_cons n hn] at h
  simp only [List.cons_append, List.cons.injEq] at h
  obtain ⟨hhead, htail⟩ := h
  by_cases hm1 : m < 0x80 <;> by_cases hn1 : n < 0x80
  · -- both low: head is the value itself or the empty marker
    unfold encNatHead at hhead
    unfold encNatTail at htail
    rw [if_pos hm1, if_pos hn1] at htail
    simp only [List.nil_append] at htail
    by_cases hm0 : m = 0 <;> by_cases hn0 : n = 0
    · exact ⟨by omega, htail⟩
    · rw [if_pos hm0, if_neg hn0, if_pos hn1] at hhead
      omega
    · rw [if_neg hm0, if_pos hm1, if_pos hn0] at hhead
      omega
    · rw [if_neg hm0, if_pos hm1, if_neg hn0, if_pos hn1] at hhead
      exact ⟨hhead, htail⟩
  · obtain ⟨he, hl⟩ := encNatHead_high hn1
    rw [he] at hhead
    unfold encNatHead at hhead
    by_cases hm0 : m = 0
    · rw [if_pos hm0] at hhead
      omega
    · rw [if_neg hm0, if_pos hm1] at hhead
      omega
  · obtain ⟨he, hl⟩ := encNatHead_high hm1
    rw [he] at hhead
    unfold encNatHead at hhead
    by_cases hn0 : n = 0
    · rw [if_pos hn0] at hhead
      omega
    · rw [if_neg hn0, if_pos hn1] at hhead
      omega
  · obtain ⟨hem, hlm⟩ := encNatHead_high hm1
    obtain ⟨hen, hln⟩ := encNatHead_high hn1
    rw [hem, hen] at hhead
    unfold encNatTail at htail
    rw [if_neg hm1, if_neg hn1] at htail
    have hlen : (beBytes m).length = (beBytes n).length := by omega
    obtain ⟨hbe, hst⟩ := List.append_inj htail hlen
    exact ⟨beBytes_injective hbe, hst⟩

theorem encList_prefix_inj {p q s t : List Nat}
    (h : encList p ++ s = encList q ++ t) : p = q ∧ s = t := by
  unfold encList listHeader at h
  by_cases hp : p.length < 56 <;> by_cases hq : q.length < 56
  · rw [if_pos hp, if_pos hq] at h
    simp only [List.cons_append, List.nil_append, List.append_assoc,
      List.cons.injEq] at h
    obtain ⟨hhead, htail⟩ := h
    exact List.append_inj htail (by omega)
  · rw [if_pos hp, if_neg hq] at h
    have := beBytes_pos (show 0 < q.length by omega)
    simp only [List.cons_append, List.cons.injEq] at h
    omega
  · rw [if_neg hp, if_pos hq] at h
    have := beBytes_pos (show 0 < p.length by omega)
    simp only [List.cons_append, List.cons.injEq] at h
    omega
  · rw [if_neg hp, if_neg hq] at h
    have hlp := beBytes_pos (show 0 < p.length by omega)
    have hlq := beBytes_pos (show 0 < q.length by omega)
    simp only [List.cons_append, List.append_assoc, List.cons.injEq] at h
    obtain ⟨hhead, htail⟩ := h
    obtain ⟨hbe, hrest⟩ := List.append_inj htail (by omega)
    have hlen : p.length = q.length := beBytes_injective hbe
    exact List.append_inj hrest hlen

theorem listHeader_ne_nil (len : Nat) : listHeader len ≠ [] := by
  unfold listHeader
  split <;> simp

theorem encList_ne_nil (p : List Nat) : encList p ≠ [] := by
  unfold encList
  intro h
  rw [List.append_eq_nil] at h
  exact listHeader_ne_nil p.length h.1

theorem flatten_map_inj {α : Type} (e : α → List Nat) (W : α → Prop)
    (hpre : ∀ x y (s t : List Nat), W x → W y → e x ++ s = e y ++ t → x = y ∧ s = t)
    (hne : ∀ x, W x → e x ≠ []) :
    ∀ xs ys : List α, (∀ x ∈ xs, W x) → (∀ y ∈ ys, W y) →
      (xs.map e).flatten = (ys.map e).flatten → xs = ys := by
  intro xs
  induction xs with
  | nil =>
    intro ys _ hys h
    cases ys with
    | nil => rfl
    | cons y ys2 =>
      exfalso
      simp only [List.map_nil, List.flatten_nil, List.map_cons, List.flatten_cons] at h
      have hne2 := hne y (hys y (by simp))
      replace h := h.symm
      rw [List.append_eq_nil] at h
      exact hne2 h.1
  | cons x xs2 ih =>
    intro ys hxs hys h
    cases ys with
    | nil =>
      exfalso
      simp only [List.map_nil, List.flatten_nil, List.map_cons, List.flatten_cons] at h
      have hne2 := hne x (hxs x (by simp))
      rw [List.append_eq_nil] at h
      exact hne2 h.1
    | cons y ys2 =>
      simp only [List.map_cons, List.flatten_cons] at h
      obtain ⟨hxy, hrest⟩ :=
        hpre x y _ _ (hxs x (by simp)) (hys y (by simp)) h
      subst hxy
      rw [ih ys2 (fun a ha => hxs a (by simp [ha]))
        (fun a ha => hys a (by simp [ha])) hrest]

theorem pow_256_eq (k : Nat) : (256 : Nat) ^ k = 2 ^ (8 * k) := by
  rw [show (256 : Nat) = 2 ^ 8 by norm_num, ← pow_mul]

theorem beBytes_length_le_55_of_lt {n : Nat} (h : n < 2 ^ 256) :
    (beBytes n).length ≤ 55 := by
  have h32 : n < 256 ^ 32 := by
    rw [pow_256_eq]
    exact h.trans_le (by norm_num)
  exact (beBytes_length_le h32).trans (by norm_num)

theorem encBalanceChange_prefix_inj {b1 b2 : BalanceChange} {s t : List Nat}
    (h1 : b1.WF) (h2 : b2.WF)
    (h : encBalanceChange b1 ++ s = encBalanceChange b2 ++ t) :
    b1 = b2 ∧ s = t := by
  obtain ⟨htx1, hbal1⟩ := h1
  obtain ⟨htx2, hbal2⟩ := h2
  unfold encBalanceChange at h
  obtain ⟨hpayload, hst⟩ := encList_prefix_inj h
  have l1 : (beBytes b1.tx_index).length ≤ 55 :=
    beBytes_length_le_55_of_lt (htx1.trans_le (by norm_num))
  have l2 : (beBytes b2.tx_index).length ≤ 55 :=
    beBytes_length_le_55_of_lt (htx2.trans_le (by norm_num))
  obtain ⟨htx, hrest⟩ := encNat_prefix_inj l1 l2 hpayload
  have hrest2 : encNat b1.post_balance ++ ([] : List Nat) =
      encNat b2.post_balance ++ ([] : List Nat) := by
    simpa using hrest
  obtain ⟨hbal, -⟩ := encNat_prefix_inj
    (beBytes_length_le_55_of_lt hbal1) (beBytes_length_le_55_of_lt hbal2) hrest2
  refine ⟨?_, hst⟩
  cases b1
  cases b2
  simp_all

theorem encBalanceChange_ne_nil (b : BalanceChange) : encBalanceChange b ≠ [] :=
  encList_ne_nil _

theorem beVal_replicate_zero (k : Nat) (l : List Nat) :
    beVal (List.replicate k 0 ++ l) = beVal l := by
  induction k with
  | zero => simp
  | succ k ih =>
    rw [List.replicate_succ, List.cons_append]
    simpa [beVal] using ih

theorem encAddress_inj {a1 a2 : Nat} (h : encAddress a1 = encAddress a2) :
    a1 = a2 := by
  unfold encAddress at h
  simp only [List.cons.injEq, true_and] at h
  have : beVal (List.replicate (20 - (beBytes a1).length) 0 ++ beBytes a1) =
      beVal (List.replicate (20 - (beBytes a2).length) 0 ++ beBytes a2) := by
    rw [h]
  rw [beVal_replicate_zero, beVal_replicate_zero, beVal_beBytes, beVal_beBytes] at this
  exact this

theorem encAddress_length {a : Nat} (h : a < 2 ^ 160) :
    (encAddress a).length = 21 := by
  have h20 : (beBytes a).length ≤ 20 := by
    refine beBytes_length_le ?_
    rw [pow_256_eq]
    exact h.trans_le (by norm_num)
  unfold encAddress
  simp only [List.length_cons, List.length_append, List.length_replicate]
  omega

theorem encAccountChanges_ne_nil (a : AccountChanges) : encAccountChanges a ≠ [] :=
  encList_ne_nil _

theorem encAccountChanges_prefix_inj {a1 a2 : AccountChanges} {s t : List Nat}
    (h1 : a1.WF) (h2 : a2.WF)
    (h : encAccountChanges a1 ++ s = encAccountChanges a2 ++ t) :
    a1 = a2 ∧ s = t := by
  unfold encAccountChanges at h
  obtain ⟨hpayload, hst⟩ := encList_prefix_inj h
  obtain ⟨haddr, hinner⟩ := List.append_inj hpayload
    ((encAddress_length h1.1).trans (encAddress_length h2.1).symm)
  have hinner2 : encList ((a1.balance_changes.map encBalanceChange).flatten) ++
      ([] : List Nat) =
      encList ((a2.balance_changes.map encBalanceChange).flatten) ++ ([] : List Nat) := by
    simpa using hinner
  obtain ⟨hflat, -⟩ := encList_prefix_inj hinner2
  have hbc : a1.balance_changes = a2.balance_changes :=
    flatten_map_inj encBalanceChange BalanceChange.WF
      (fun x y s t hx hy => encBalanceChange_prefix_inj hx hy)
      (fun x _ => encBalanceChange_ne_nil x)
      a1.balance_changes a2.balance_changes h1.2 h2.2 hflat
  refine ⟨?_, hst⟩
  have haddr2 := encAddress_inj haddr
  cases a1
  cases a2
  simp_all

/-- C4: the canonical encoding is injective on well-formed
`BlockAccessList` values: two lists that differ in any field, in the order
of entries, or in the count of entries produce different
`canonical_bytes()` output. -/
theorem c4_canonical_injective (b1 b2 : BlockAccessList)
    (h1 : balWF b1) (h2 : balWF b2)
    (h : canonical_bytes b1 = canonical_bytes b2) : b1 = b2 := by
  unfold canonical_bytes at h
  have h' : encList ((b1.map encAccountChanges).flatten) ++ ([] : List Nat) =
      encList ((b2.map encAccountChanges).flatten) ++ ([] : List Nat) := by
    simpa using h
  obtain ⟨hflat, -⟩ := encList_prefix_inj h'
  exact flatten_map_inj encAccountChanges AccountChanges.WF
    (fun x y s t hx hy => encAccountChanges_prefix_inj hx hy)
    (fun x _ => encAccountChanges_ne_nil x)
    b1 b2 h1 h2 hflat

/-- Witness for C4 at concrete well-formed lists. -/
theorem c4_witness :
    balWF [accS] ∧ balWF [accS] ∧ ([accS] : BlockAccessList) = [accS] :=
  ⟨by decide, by decide, c4_canonical_injective [accS] [accS] (by decide) (by decide) rfl⟩

/-! ## Decoder correctness -/

theorem beVal_nil : beVal [] = 0 := rfl

theorem encNat_length_le {n w : Nat} (hn : n < 256 ^ w) (hw : w < 56) :
    (encNat n).length ≤ w + 1 := by
  have hlen := beBytes_length_le hn
  rw [encNat_eq_cons n (by omega)]
  unfold encNatTail
  split
  · simp
  · simp only [List.length_cons]
    omega

theorem decodeScalar_encNat {w n : Nat} (hw : w < 56) (hn : n < 256 ^ w)
    (rest : List Nat) :
    decodeScalar w (encNat n ++ rest) = .ok (n, rest) := by
  by_cases h0 : n = 0
  · subst h0
    simp [encNat, decodeScalar, beVal]
  · by_cases h1 : n < 0x80
    · have he : encNat n = [n] := by simp [encNat, h0, h1]
      rw [he]
      simp [decodeScalar, h0, h1]
    · have hlen : (beBytes n).length ≤ w := beBytes_length_le hn
      have hpos : 0 < (beBytes n).length := beBytes_pos (by omega)
      obtain ⟨a, l, hl, ha⟩ := beBytes_head_pos (show 0 < n by omega)
      have ha128 : (beBytes n).length = 1 → 0x80 ≤ a := by
        intro hl1
        rw [hl] at hl1
        simp only [List.length_cons] at hl1
        have hlnil : l = [] := List.eq_nil_of_length_eq_zero (by omega)
        have : beVal (beBytes n) = n := beVal_beBytes n
        rw [hl, hlnil] at this
        simp [beVal] at this
        omega
      have hfirst : (beBytes n ++ rest).getD 0 0 = a := by
        rw [hl]
        rfl
      have henc : encNat n ++ rest =
          (0x80 + (beBytes n).length) :: (beBytes n ++ rest) := by
        rw [encNat_eq_cons n (by omega)]
        unfold encNatHead encNatTail
        rw [if_neg h0, if_neg h1, if_neg h1]
        rfl
      rw [henc]
      simp only [decodeScalar]
      rw [if_neg (by omega), if_pos (by omega)]
      rw [if_neg (by simp only [List.length_append]; omega)]
      rw [if_neg (by
        rintro ⟨hL1, hfa⟩
        rw [hfirst] at hfa
        have := ha128 (by omega)
        omega)]
      rw [if_neg (by omega)]
      rw [if_neg (by
        rintro ⟨-, hz⟩
        rw [hfirst] at hz
        omega)]
      simp only [Nat.add_sub_cancel_left, List.take_left, List.drop_left,
        beVal_beBytes]

theorem decodeListHeader_short {p : List Nat} (hp : p.length < 56)
    (rest : List Nat) :
    decodeListHeader (encList p ++ rest) = .ok (p.length, p ++ rest) := by
  have he : encList p = (0xc0 + p.length) :: p := by
    unfold encList listHeader
    rw [if_pos hp]
    rfl
  rw [he, List.cons_append]
  simp only [decodeListHeader]
  rw [if_neg (by omega), if_pos (by omega)]
  rw [if_neg (by simp only [List.length_append]; omega)]
  simp only [Nat.add_sub_cancel_left]

/-- C9: RLP round trip for `BalanceChange`: decoding the derived RLP
encoding of any well-formed `BalanceChange` succeeds, yields an equal value,
and consumes the entire input. -/
theorem c9_rlp_roundtrip (b : BalanceChange) (h : b.WF) :
    decodeBalanceChange (encBalanceChange b) = .ok (b, []) := by
  obtain ⟨htx, hbal⟩ := h
  have htx8 : b.tx_index < 256 ^ 8 := by
    rw [pow_256_eq]
    simpa using htx
  have hbal32 : b.post_balance < 256 ^ 32 := by
    rw [pow_256_eq]
    simpa using hbal
  have hplen : (encNat b.tx_index ++ encNat b.post_balance).length < 56 := by
    have e1 := encNat_length_le htx8 (by norm_num)
    have e2 := encNat_length_le hbal32 (by norm_num)
    simp only [List.length_append]
    omega
  have hhdr : decodeListHeader (encBalanceChange b) =
      .ok ((encNat b.tx_index ++ encNat b.post_balance).length,
        encNat b.tx_index ++ encNat b.post_balance) := by
    have := decodeListHeader_short hplen []
    simpa [encBalanceChange] using this
  have hs1 : decodeScalar 8 (encNat b.tx_index ++ encNat b.post_balance) =
      .ok (b.tx_index, encNat b.post_balance) :=
    decodeScalar_encNat (by norm_num) htx8 _
  have hs2 : decodeScalar 32 (encNat b.post_balance) = .ok (b.post_balance, []) := by
    have := decodeScalar_encNat (by norm_num) hbal32 ([] : List Nat)
    simpa using this
  unfold decodeBalanceChange
  rw [hhdr]
  simp [Bind.bind, Except.bind, hs1, hs2, BalanceChange.new]
  rfl

/-- Witness for C9 at the concrete change `(tx_index = 3, post_balance = 250)`. -/
theorem c9_witness :
    (BalanceChange.new 3 250).WF ∧
      decodeBalanceChange (encBalanceChange (BalanceChange.new 3 250)) =
        .ok (BalanceChange.new 3 250, []) :=
  ⟨by decide, c9_rlp_roundtrip (BalanceChange.new 3 250) (by decide)⟩
